import Mathlib

/-!
Verification of the post-matcher similarity engine (`src/postMatcher.ts`).

The source file contains two variants of the same script, concatenated:
the verbose variant (functions `calculateSingleDocSimilarities`,
`computeAllSimilarities`, `generateDocumentEmbeddings`, `processDocumentFile`)
and the compact variant (functions `topSimilar`, `allSimilarities`, `dot`,
`normalize`, `embedDocs`, `processFile`).  Both are embedded here.

Modelling conventions:
* IEEE doubles are idealized as exact rationals (`ℚ`) for the ranking layer,
  and as real numbers (`ℝ`) for the normalization layer (which divides by a
  square root).  `NaN` does not exist in the idealization; comments note the
  spots where JavaScript would produce `NaN` on inputs outside the aligned
  shapes the claims quantify over.
* JavaScript's `Array.prototype.sort` with comparator
  `(a, b) => b.similarity - a.similarity` is, per the ECMAScript spec
  (ES2019 and later), a stable sort consistent with that comparator; it is
  modelled by the stable insertion sort `sortSimDesc`, which produces the
  unique stable descending-by-similarity permutation.
* `x.toFixed(2)` followed by unary `+`/`parseFloat` is modelled by `round2`:
  round to the nearest multiple of 1/100, ties toward +infinity (the
  ECMAScript `toFixed` tie rule: of the two nearest candidates pick the
  larger `n`).
* The external collaborators (the `remark`/`strip-markdown` converter, the
  embedding model) are passed in as explicit arguments (`strip`, the
  `EmbeddingOutput` record), following the system boundary described by the
  spec: the core is a pure function of those inputs.
-/

namespace PostMatcher

/-- A JavaScript value as far as the frontmatter logic observes it: a string,
a boolean, or the absent value `undefined`.  (Parsed YAML frontmatter can hold
other shapes; the embedded claims only exercise these.) -/
inductive JsVal : Type where
  | str (s : String)
  | bool (b : Bool)
  | undef
deriving DecidableEq

/-- JS truthiness of a `JsVal` (`!v` negated): empty string, `false` and
`undefined` are falsy. -/
def JsVal.truthy : JsVal → Bool
  | .str s => !s.isEmpty
  | .bool b => b
  | .undef => false

/-- Coercion of a `JsVal` to a JS property key (string), as performed when a
value is used as a computed key of a `Record`. -/
def keyStr : JsVal → String
  | .str s => s
  | .bool true => "true"
  | .bool false => "false"
  | .undef => "undefined"

/-- The parsed frontmatter of a document: the two keys the program inspects
(`slug`, `draft`; absent keys are `JsVal.undef`) plus the remaining key/value
pairs, carried around verbatim (TS interface `Frontmatter`). -/
structure Frontmatter where
  slug : JsVal
  draft : JsVal
  extra : List (String × JsVal)
deriving DecidableEq

/-- TS interface `Document`: path, plain-text content, frontmatter. -/
structure Document where
  path : String
  content : String
  frontmatter : Frontmatter
deriving DecidableEq

/-- TS interface `SimilarityResult`: the spread `{...targetDoc.frontmatter}`
(its fields appear flattened here) with `path` overridden to the target's
path and `similarity` added.  The numeric type is a parameter so the same
structure serves the rational and the real embedding.  (The model assumes the
frontmatter's `extra` keys do not themselves contain `path`/`similarity`,
which the spread would override.) -/
structure SimilarityResult (α : Type) where
  slug : JsVal
  draft : JsVal
  extra : List (String × JsVal)
  path : String
  similarity : α
deriving DecidableEq

/-- Builds the literal `{...targetDoc.frontmatter, path: targetDoc.path,
similarity: score}` of both variants. -/
def mkResult {α : Type} (d : Document) (score : α) : SimilarityResult α :=
  ⟨d.frontmatter.slug, d.frontmatter.draft, d.frontmatter.extra, d.path, score⟩

/-- `+similarityScore.toFixed(2)` / `parseFloat(x.toFixed(2))`: round to two
decimals, ties toward plus infinity (ECMAScript `toFixed`). -/
def round2 (q : ℚ) : ℚ := (⌊q * 100 + 1 / 2⌋ : ℚ) / 100

/-- Compact variant `dot`: `a.reduce((sum, ai, i) => sum + ai * b[i], 0)`.
The fold runs over the indices of `a`; an out-of-range access `b[i]` (which
in JS yields `undefined` and hence a `NaN` sum) is idealized as `0` — the
claims about `dot` quantify over equal-length vectors, where the case does
not arise. -/
def dot (a b : List ℚ) : ℚ :=
  a.enum.foldl (fun sum p => sum + p.2 * b.getD p.1 0) 0

/-- Verbose variant `cosineSimilarity`: a `for` loop over `vecA.length`
accumulating `vecA[i] * vecB[i]`.  Same out-of-range idealization as `dot`. -/
def cosineSimilarity (vecA vecB : List ℚ) : ℚ :=
  (List.range vecA.length).foldl (fun acc i => acc + vecA.getD i 0 * vecB.getD i 0) 0

/-- One step of the stable insertion sort modelling
`arr.sort((a, b) => b.similarity - a.similarity)`: a new element is placed
before the first strictly smaller similarity, hence after every
earlier-inserted element of equal similarity. -/
def insertSimDesc {α : Type} [LinearOrder α] (x : SimilarityResult α) :
    List (SimilarityResult α) → List (SimilarityResult α)
  | [] => [x]
  | y :: ys => if y.similarity < x.similarity then x :: y :: ys else y :: insertSimDesc x ys

/-- JS `Array.prototype.sort` with comparator `(a, b) => b.similarity -
a.similarity`: the unique stable permutation sorted by descending
similarity, realized as a left-to-right insertion sort. -/
def sortSimDesc {α : Type} [LinearOrder α] (l : List (SimilarityResult α)) :
    List (SimilarityResult α) :=
  l.foldl (fun acc x => insertSimDesc x acc) []

/-- The array built by the compact variant's
`docs.map((d, j) => j === idx ? null : {...})`. -/
def neighborEntries (idx : Nat) (docs : List Document) (embs : List (List ℚ)) :
    List (Option (SimilarityResult ℚ)) :=
  docs.enum.map (fun p =>
    if p.1 = idx then none
    else some (mkResult p.2 (round2 (dot (embs.getD idx []) (embs.getD p.1 [])))))

/-- Compact variant `topSimilar`: map to entry-or-null, `.filter(Boolean)`,
stable sort by descending similarity, `.slice(0, n)`. -/
def topSimilar (idx : Nat) (docs : List Document) (embs : List (List ℚ)) (n : Nat) :
    List (SimilarityResult ℚ) :=
  (sortSimDesc ((neighborEntries idx docs embs).filterMap id)).take n

/-- The array built by the verbose variant's `for` loop over `j`, skipping
`sourceDocIndex === j` and pushing one entry per other document. -/
def calcEntries (sourceDocIndex : Nat) (allDocuments : List Document)
    (allEmbeddings : List (List ℚ)) : List (SimilarityResult ℚ) :=
  allDocuments.enum.filterMap (fun p =>
    if sourceDocIndex = p.1 then none
    else some (mkResult p.2 (round2 (cosineSimilarity (allEmbeddings.getD sourceDocIndex [])
      (allEmbeddings.getD p.1 [])))))

/-- Verbose variant `calculateSingleDocSimilarities`: build the entry list,
stable sort descending, `.slice(0, topN)`. -/
def calculateSingleDocSimilarities (sourceDocIndex : Nat) (allDocuments : List Document)
    (allEmbeddings : List (List ℚ)) (topN : Nat) : List (SimilarityResult ℚ) :=
  (sortSimDesc (calcEntries sourceDocIndex allDocuments allEmbeddings)).take topN

/-- JS `record[k] = v`: overwrite in place if the key exists, else append,
on a `Record` modelled as an insertion-ordered association list. -/
def recordSet {V : Type} (m : List (String × V)) (k : String) (v : V) :
    List (String × V) :=
  if m.any (fun p => decide (p.1 = k)) then m.map (fun p => if p.1 = k then (k, v) else p)
  else m ++ [(k, v)]

/-- Reading `record[k]` (the value of the first — and, keys being unique,
only — entry with that key). -/
def recordLookup {V : Type} : List (String × V) → String → Option V
  | [], _ => none
  | p :: m, k => if p.1 = k then some p.2 else recordLookup m k

/-- Verbose variant `computeAllSimilarities`: `documents.forEach((doc, i) =>
{ resultsBySlug[doc.frontmatter.slug] = calculateSingleDocSimilarities(i, ...) })`. -/
def computeAllSimilarities (documents : List Document) (embeddings : List (List ℚ))
    (topN : Nat) : List (String × List (SimilarityResult ℚ)) :=
  documents.enum.foldl (fun acc p =>
    recordSet acc (keyStr p.2.frontmatter.slug)
      (calculateSingleDocSimilarities p.1 documents embeddings topN)) []

/-- Compact variant `allSimilarities`: `Object.fromEntries(docs.map((d, i) =>
[d.frontmatter.slug, topSimilar(i, ...)]))`; `Object.fromEntries` performs
the same later-entry-overwrites key assignment as `record[k] = v`. -/
def allSimilarities (docs : List Document) (embs : List (List ℚ)) (n : Nat) :
    List (String × List (SimilarityResult ℚ)) :=
  (docs.enum.map (fun p => (keyStr p.2.frontmatter.slug, topSimilar p.1 docs embs n))).foldl
    (fun acc kv => recordSet acc kv.1 kv.2) []

/-! ### The text-normalization pipeline (`getPlainText`)

Both variants run the same chain of `String.prototype.replace` calls (all
with the `g` flag, the line patterns with `m`, the heading pattern also with
`i`) after the external `remark().use(strip)` markdown-to-text conversion.
Each replace call is modelled by a deterministic scanner that reproduces the
regex engine's leftmost-match/greedy/backtracking behaviour for that
particular pattern.  `^` holds at offset 0 and after a newline; `$` holds at
the end and before a newline; `.` does not match newlines but `\s` does, so
character classes containing `\s` can span lines.  (Only `\n` is treated as
a line terminator; the inputs considered do not use `\r`/`\u2028`/`\u2029`,
which JS would also treat as line boundaries.) -/

/-- JS regex `\s` restricted to the code points that occur in the inputs
considered (ASCII whitespace plus NBSP and BOM; the remaining Unicode
space-separator code points are omitted from the model). -/
def isJsWs (c : Char) : Bool :=
  c == ' ' || c == '\t' || c == '\n' || c == '\r' ||
  c == '\x0B' || c == '\x0C' || c == '\u00A0' || c == '\uFEFF'

/-- `^` holds after a match iff the last consumed character is a newline
(matching continues over the original string, so the flag is derived from
the matched text). -/
def nextAtStart (m : List Char) (old : Bool) : Bool :=
  match m.getLast? with
  | some c => c == '\n'
  | none => old

/-- Generic engine for `s.replace(pattern-with-g-flag, repl)`: scan left to
right; where the pattern matches, emit the replacement and resume right
after the matched text, else emit one character and advance.  The fuel
argument (initialized to the text length) only bounds the recursion; every
pattern used below consumes at least one character per match, so it is never
exhausted. -/
def replaceScan (tryM : List Char → Bool → Option (List Char × List Char))
    (repl : List Char → List Char) : Nat → List Char → Bool → List Char
  | 0, cs, _ => cs
  | fuel + 1, cs, atStart =>
    match tryM cs atStart with
    | some (m, rest) => repl m ++ replaceScan tryM repl fuel rest (nextAtStart m atStart)
    | none =>
      match cs with
      | [] => []
      | c :: cs2 => c :: replaceScan tryM repl fuel cs2 (c == '\n')

/-- Run a replace pass over a whole text (offset 0 is a line start). -/
def runReplace (tryM : List Char → Bool → Option (List Char × List Char))
    (repl : List Char → List Char) (cs : List Char) : List Char :=
  replaceScan tryM repl cs.length cs true

/-- `^import .*?$` / `^export .*?$` (flags `gm`): at a line start, a line
beginning with the given literal matches in its entirety (`.` excludes
newlines; the lazy `.*?` is forced to the line end by `$`). -/
def matchPrefixLine (pfx : List Char) (cs : List Char) (atStart : Bool) :
    Option (List Char × List Char) :=
  if atStart && pfx.isPrefixOf cs then
    some (cs.takeWhile (fun c => c != '\n'), cs.dropWhile (fun c => c != '\n'))
  else none

def matchImportLine (cs : List Char) (atStart : Bool) : Option (List Char × List Char) :=
  matchPrefixLine "import ".data cs atStart

def matchExportLine (cs : List Char) (atStart : Bool) : Option (List Char × List Char) :=
  matchPrefixLine "export ".data cs atStart

/-- Case-insensitive literal-prefix test, returning the rest on success. -/
def ciPrefixRest (kw : List Char) (cs : List Char) : Option (List Char) :=
  match kw, cs with
  | [], rest => some rest
  | _ :: _, [] => none
  | k :: ks, c :: cs2 => if c.toLower == k then ciPrefixRest ks cs2 else none

/-- Splits a (whitespace) run at its LAST newline: the largest `(w, t)` with
`w ++ t` the input and `t` starting with a newline.  This is where a greedy
`\s*` (or `[A-Z\s]{n,}`) backtracks to so that `$` can hold. -/
def lastNlSplit : List Char → Option (List Char × List Char)
  | [] => none
  | c :: cs =>
    match lastNlSplit cs with
    | some (w, t) => some (c :: w, t)
    | none => if c == '\n' then some ([], c :: cs) else none

/-- Greedy `\s*$`: the longest whitespace prefix after which the position is
a line end (end of input, or immediately before a newline). -/
def wsToLineEnd (cs : List Char) : Option (List Char × List Char) :=
  let run := cs.takeWhile isJsWs
  let rest := cs.drop run.length
  if rest.isEmpty then some (run, rest)
  else
    match lastNlSplit run with
    | some (w, t) => some (w, t ++ rest)
    | none => none

/-- The alternation `TLDR|Introduction|Conclusion|Summary|Quick Setup
Guide|Rules?` lowercased, in source order; the greedy `s?` makes `rules`
tried before `rule`. -/
def headingKeywords : List (List Char) :=
  ["tldr".data, "introduction".data, "conclusion".data, "summary".data,
   "quick setup guide".data, "rules".data, "rule".data]

/-- `^\s*(TLDR|…|Rules?)\s*$` (flags `gim`): at a line start, consume the
maximal whitespace run (the keywords start with letters, so a shorter run
cannot help), then the first keyword (case-insensitively) whose `\s*$` tail
also succeeds. -/
def matchHeading (cs : List Char) (atStart : Bool) : Option (List Char × List Char) :=
  if atStart then
    let ws := cs.takeWhile isJsWs
    let cs1 := cs.drop ws.length
    headingKeywords.findSome? (fun kw =>
      match ciPrefixRest kw cs1 with
      | none => none
      | some cs2 =>
        match wsToLineEnd cs2 with
        | none => none
        | some (w2, rest) => some (ws ++ cs1.take kw.length ++ w2, rest))
  else none

/-- `^[A-Z\s]{4,}$` (flags `gm`): at a line start, greedily consume capitals
and whitespace (the class includes newlines, so it can span lines), then
backtrack to the longest prefix of length at least 4 that ends at a line
end.  Backtracking lands on the run's last newline, so if that split is too
short, every shorter one is as well. -/
def matchCaps (cs : List Char) (atStart : Bool) : Option (List Char × List Char) :=
  if atStart then
    let run := cs.takeWhile (fun c => c.isUpper || isJsWs c)
    let rest := cs.drop run.length
    if rest.isEmpty then
      if 4 ≤ run.length then some (run, rest) else none
    else
      match lastNlSplit run with
      | some (w, t) => if 4 ≤ w.length then some (w, t ++ rest) else none
      | none => none
  else none

/-- `^\|.*\|$` (flags `gm`): a line of length at least 2 that starts and
ends with a pipe (again `.` keeps the match within the line). -/
def matchTable (cs : List Char) (atStart : Bool) : Option (List Char × List Char) :=
  if atStart then
    let line := cs.takeWhile (fun c => c != '\n')
    if 2 ≤ line.length && line.headD ' ' == '|' && line.getLastD ' ' == '|' then
      some (line, cs.drop line.length)
    else none
  else none

/-- The literal head `Rule\s\d+:` of the rule-marker pattern. -/
def ruleHead (cs : List Char) : Option (List Char × List Char) :=
  match cs with
  | 'R' :: 'u' :: 'l' :: 'e' :: c :: cs1 =>
    if isJsWs c then
      let ds := cs1.takeWhile Char.isDigit
      if ds.isEmpty then none
      else
        match cs1.drop ds.length with
        | ':' :: cs2 => some ('R' :: 'u' :: 'l' :: 'e' :: c :: (ds ++ [':']), cs2)
        | _ => none
    else none
  | _ => none

/-- The lookahead `(?=\s*Rule\s\d+:)`: skip the maximal whitespace run (the
head starts with a letter) and require the head there. -/
def ruleLook (cs : List Char) : Bool :=
  (ruleHead (cs.dropWhile isJsWs)).isSome

/-- Greedy backtracking for the `.*` before the lookahead: starting from the
longest candidate (`pendRev` is the reversed not-yet-relinquished text),
give characters back one at a time until the lookahead holds. -/
def ruleGreedy : List Char → List Char → Option (List Char × List Char)
  | pendRev, suffix =>
    if ruleLook suffix then some (pendRev, suffix)
    else
      match pendRev with
      | [] => none
      | c :: pr => ruleGreedy pr (c :: suffix)

/-- `(Rule\s\d+:.*)(?=\s*Rule\s\d+:)` (flag `g`, no `m`/`i`): the head, then
the longest stretch of the current line after which another rule marker
(possibly across whitespace) follows.  The replacement `$1\n` appends a
newline to the match. -/
def matchRule (cs : List Char) (_atStart : Bool) : Option (List Char × List Char) :=
  match ruleHead cs with
  | none => none
  | some (hd, cs2) =>
    let lineRest := cs2.takeWhile (fun c => c != '\n')
    let rest0 := cs2.drop lineRest.length
    match ruleGreedy lineRest.reverse rest0 with
    | none => none
    | some (takenRev, suffix) => some (hd ++ takenRev.reverse, suffix)

/-- `\n{3,}` (flag `g`): a maximal newline run of length at least 3
(replaced by two newlines). -/
def matchNl3 (cs : List Char) (_ : Bool) : Option (List Char × List Char) :=
  let run := cs.takeWhile (fun c => c == '\n')
  if 3 ≤ run.length then some (run, cs.drop run.length) else none

/-- `\n{2}` (flag `g`): two consecutive newlines (replaced by themselves —
the source's `.replace(/\n{2}/g, "\n\n")` pass). -/
def matchNl2 (cs : List Char) (_ : Bool) : Option (List Char × List Char) :=
  match cs with
  | c1 :: c2 :: rest =>
    if c1 == '\n' && c2 == '\n' then some ([c1, c2], rest) else none
  | _ => none

/-- `\n` (flag `g`): a single newline (replaced by a space). -/
def matchNl1 (cs : List Char) (_ : Bool) : Option (List Char × List Char) :=
  match cs with
  | c :: rest => if c == '\n' then some ([c], rest) else none
  | _ => none

/-- `\s{2,}` (flag `g`): a maximal whitespace run of length at least 2
(replaced by a single space). -/
def matchWs2 (cs : List Char) (_ : Bool) : Option (List Char × List Char) :=
  let run := cs.takeWhile isJsWs
  if 2 ≤ run.length then some (run, cs.drop run.length) else none

/-- JS `String.prototype.trim`. -/
def trimL (cs : List Char) : List Char :=
  ((cs.dropWhile isJsWs).reverse.dropWhile isJsWs).reverse

/-- The regex chain of `getPlainText`, applied to the output of the external
markdown stripper, in source order: drop `import`/`export` lines, boilerplate
headings, all-caps lines and table rows; break adjacent rule markers onto
separate lines; then normalize whitespace and trim. -/
def getPlainTextPostL (cs : List Char) : List Char :=
  let t1 := runReplace matchImportLine (fun _ => []) cs
  let t2 := runReplace matchExportLine (fun _ => []) t1
  let t3 := runReplace matchHeading (fun _ => []) t2
  let t4 := runReplace matchCaps (fun _ => []) t3
  let t5 := runReplace matchTable (fun _ => []) t4
  let t6 := runReplace matchRule (fun m => m ++ ['\n']) t5
  let t7 := runReplace matchNl3 (fun _ => ['\n', '\n']) t6
  let t8 := runReplace matchNl2 (fun _ => ['\n', '\n']) t7
  let t9 := runReplace matchNl1 (fun _ => [' ']) t8
  let t10 := runReplace matchWs2 (fun _ => [' ']) t9
  trimL t10

/-- String-level wrapper of the regex chain. -/
def getPlainTextPost (s : String) : String :=
  String.mk (getPlainTextPostL s.data)

/-- `getPlainText` of both variants: the external `remark().use(strip)`
markdown-to-text collaborator (passed in as `strip`, per the spec's system
boundary), followed by the regex chain. -/
def getPlainText (strip : String → String) (markdownContent : String) : String :=
  getPlainTextPost (strip markdownContent)

/-! ### Document loading and the embedding stage -/

/-- One content file after the out-of-scope filesystem read and
`gray-matter` parse: its path, its markdown body, and its parsed
frontmatter. -/
structure RawFile where
  path : String
  body : String
  data : Frontmatter
deriving DecidableEq

/-- The verbose variant's slug validation:
`typeof parsedFrontmatter.slug !== 'string' || !parsedFrontmatter.slug`
rejects non-strings and the empty string. -/
def isValidSlug : JsVal → Bool
  | .str s => !s.isEmpty
  | _ => false

/-- Verbose variant `processDocumentFile` (minus the filesystem read):
skip when the slug is not a non-empty string, skip when `draft === true`,
otherwise build the `Document` with the normalized plain text. -/
def processDocumentFile (strip : String → String) (file : RawFile) : Option Document :=
  if !isValidSlug file.data.slug then none
  else if file.data.draft = JsVal.bool true then none
  else some ⟨file.path, getPlainText strip file.body, file.data⟩

/-- Verbose variant `loadAllDocuments`: keep the successfully processed
documents in input order. -/
def loadAllDocuments (strip : String → String) (filePaths : List RawFile) : List Document :=
  filePaths.filterMap (processDocumentFile strip)

/-- Compact variant `processFile`: `if (!data.slug || data.draft) return
null` — truthiness tests instead of the verbose variant's type checks. -/
def processFile (strip : String → String) (file : RawFile) : Option Document :=
  if !file.data.slug.truthy || file.data.draft.truthy then none
  else some ⟨file.path, getPlainText strip file.body, file.data⟩

/-- Compact variant `loadDocs`. -/
def loadDocs (strip : String → String) (paths : List RawFile) : List Document :=
  paths.filterMap (processFile strip)

/-- The external embedding model's response: `{dims, data}` with `data` the
row-major flattened `[N, D]` buffer (verbose variant; rational
idealization). -/
structure EmbeddingOutput where
  dims : List Nat
  data : List ℚ
deriving DecidableEq

/-- Verbose variant `generateDocumentEmbeddings` (the extractor call is the
`out` argument): return `[]` for an empty corpus, `[]` when `dims` has fewer
than two entries, `[]` when `dims[0]` differs from the document count, else
slice the flat buffer into `dims[0]` vectors of length `dims[1]` (the
source's `numDocsOutput`/`embeddingDim` const bindings are inlined here).
Note the error cases are signalled in-band by an empty list; no exception is
thrown. -/
def generateDocumentEmbeddings (docs : List Document) (out : EmbeddingOutput) :
    List (List ℚ) :=
  if docs.isEmpty then []
  else if out.dims.length < 2 then []
  else if out.dims.getD 0 0 ≠ docs.length then []
  else (List.range (out.dims.getD 0 0)).map (fun i =>
    (out.data.drop (i * out.dims.getD 1 0)).take (out.dims.getD 1 0))

/-- The verbose variant's `runSimilarityAnalysis`, from the point where the
file paths are known (the extractor initialization, logging and the final
file write are out of scope): `none` models every early `return` that
produces no similarity output. -/
def runV1 (strip : String → String) (files : List RawFile) (out : EmbeddingOutput)
    (topN : Nat) : Option (List (String × List (SimilarityResult ℚ))) :=
  if files.isEmpty then none
  else if (loadAllDocuments strip files).isEmpty then none
  else if (generateDocumentEmbeddings (loadAllDocuments strip files) out).isEmpty &&
      !(loadAllDocuments strip files).isEmpty then none
  else if (generateDocumentEmbeddings (loadAllDocuments strip files) out).isEmpty &&
      (loadAllDocuments strip files).isEmpty then none
  else some (computeAllSimilarities (loadAllDocuments strip files)
    (generateDocumentEmbeddings (loadAllDocuments strip files) out) topN)

/-! ### The compact variant's embedding stage (real-valued)

The compact variant normalizes vectors itself (`normalize`), which divides
by a Euclidean norm; this layer is therefore idealized over `ℝ`. -/

/-- The compact variant's model response (real idealization). -/
structure EmbeddingOutputR where
  dims : List Nat
  data : List ℝ

/-- Sum of squares of a vector (the quantity under `Math.hypot`'s root). -/
noncomputable def sumSqR (v : List ℝ) : ℝ := (v.map (fun x => x * x)).sum

/-- `Math.hypot(...vec)`: the Euclidean norm. -/
noncomputable def hypotR (v : List ℝ) : ℝ := Real.sqrt (sumSqR v)

/-- Compact variant `normalize`: divide by the norm unless it is zero
(`if (!len) return vec`), in which case the vector is returned unchanged —
no division by zero is performed. -/
noncomputable def normalize (vec : List ℝ) : List ℝ :=
  if hypotR vec = 0 then vec else vec.map (fun x => x / hypotR vec)

/-- Compact variant `embedDocs` (the extractor call is the `res` argument).
`const [n, dim] = res.dims` destructures with JS semantics: a missing
`dims[0]` makes `Array.from({length: undefined})` empty; a missing `dims[1]`
makes every slice `slice(NaN, NaN)`, i.e. empty, which `normalize` returns
unchanged.  No shape or count validation is performed. -/
noncomputable def embedDocs (docs : List Document) (res : EmbeddingOutputR) :
    List (List ℝ) :=
  if docs.isEmpty then []
  else
    match res.dims with
    | [] => []
    | [n] => (List.range n).map (fun _ => normalize [])
    | n :: dim :: _ => (List.range n).map (fun i =>
        normalize ((res.data.drop (i * dim)).take dim))

/-- Compact variant `dot` at the real instance (same source expression as
the rational `dot`). -/
noncomputable def dotR (a b : List ℝ) : ℝ :=
  a.enum.foldl (fun sum p => sum + p.2 * b.getD p.1 0) 0

/-- `+x.toFixed(2)` at the real instance. -/
noncomputable def round2R (q : ℝ) : ℝ := (⌊q * 100 + 1 / 2⌋ : ℤ) / 100

/-- Compact variant `topSimilar`'s entry array at the real instance. -/
noncomputable def neighborEntriesR (idx : Nat) (docs : List Document)
    (embs : List (List ℝ)) : List (Option (SimilarityResult ℝ)) :=
  docs.enum.map (fun p =>
    if p.1 = idx then none
    else some (mkResult p.2 (round2R (dotR (embs.getD idx []) (embs.getD p.1 [])))))

/-- Compact variant `topSimilar` at the real instance. -/
noncomputable def topSimilarR (idx : Nat) (docs : List Document) (embs : List (List ℝ))
    (n : Nat) : List (SimilarityResult ℝ) :=
  (sortSimDesc ((neighborEntriesR idx docs embs).filterMap id)).take n

/-- Compact variant `allSimilarities` at the real instance. -/
noncomputable def allSimilaritiesR (docs : List Document) (embs : List (List ℝ))
    (n : Nat) : List (String × List (SimilarityResult ℝ)) :=
  (docs.enum.map (fun p => (keyStr p.2.frontmatter.slug, topSimilarR p.1 docs embs n))).foldl
    (fun acc kv => recordSet acc kv.1 kv.2) []

/-- The compact variant's `main`, from the point where the file paths are
known: `none` models every early `return` without similarity output. -/
noncomputable def runV2 (strip : String → String) (files : List RawFile)
    (res : EmbeddingOutputR) (n : Nat) :
    Option (List (String × List (SimilarityResult ℝ))) :=
  if files.isEmpty then none
  else if (loadDocs strip files).isEmpty then none
  else if (embedDocs (loadDocs strip files) res).isEmpty then none
  else some (allSimilaritiesR (loadDocs strip files)
    (embedDocs (loadDocs strip files) res) n)

/-! ### Lemmas about the stable sort -/

/-- The descending-similarity relation the comparator sorts by. -/
def simGE {α : Type} [LinearOrder α] (a b : SimilarityResult α) : Prop :=
  b.similarity ≤ a.similarity

theorem insertSimDesc_perm {α : Type} [LinearOrder α] (x : SimilarityResult α)
    (l : List (SimilarityResult α)) : (insertSimDesc x l).Perm (x :: l) := by
  induction l with
  | nil => exact List.Perm.refl _
  | cons y ys ih =>
    unfold insertSimDesc
    split
    · exact List.Perm.refl _
    · exact (ih.cons y).trans (List.Perm.swap x y ys)

theorem sortSimDesc_go_perm {α : Type} [LinearOrder α] :
    ∀ (l acc : List (SimilarityResult α)),
      (l.foldl (fun acc x => insertSimDesc x acc) acc).Perm (acc ++ l) := by
  intro l
  induction l with
  | nil => intro acc; simp
  | cons x l2 ih =>
    intro acc
    have h1 : ((x :: l2).foldl (fun acc x => insertSimDesc x acc) acc) =
        l2.foldl (fun acc x => insertSimDesc x acc) (insertSimDesc x acc) := rfl
    rw [h1]
    have h2 := ih (insertSimDesc x acc)
    have h3 : (insertSimDesc x acc ++ l2).Perm ((x :: acc) ++ l2) :=
      (insertSimDesc_perm x acc).append_right l2
    have h4 : ((x :: acc) ++ l2).Perm (acc ++ x :: l2) := by
      have h5 : (acc ++ x :: l2).Perm (x :: (acc ++ l2)) := List.perm_middle
      exact h5.symm
    exact (h2.trans h3).trans h4

theorem sortSimDesc_perm {α : Type} [LinearOrder α] (l : List (SimilarityResult α)) :
    (sortSimDesc l).Perm l := by
  simpa [sortSimDesc] using sortSimDesc_go_perm l []

theorem insertSimDesc_pairwise {α : Type} [LinearOrder α] {x : SimilarityResult α}
    {l : List (SimilarityResult α)} (h : l.Pairwise simGE) :
    (insertSimDesc x l).Pairwise simGE := by
  induction l with
  | nil => simp [insertSimDesc, List.pairwise_cons]
  | cons y ys ih =>
    rw [List.pairwise_cons] at h
    unfold insertSimDesc
    split
    · rename_i hlt
      rw [List.pairwise_cons]
      refine ⟨?_, by rw [List.pairwise_cons]; exact h⟩
      intro z hz
      rcases List.mem_cons.mp hz with hz | hz
      · subst hz; exact le_of_lt hlt
      · exact le_trans (h.1 z hz) (le_of_lt hlt)
    · rename_i hge
      rw [List.pairwise_cons]
      refine ⟨?_, ih h.2⟩
      intro z hz
      have hz2 : z ∈ x :: ys := (insertSimDesc_perm x ys).mem_iff.mp hz
      rcases List.mem_cons.mp hz2 with hz2 | hz2
      · subst hz2; exact not_lt.mp hge
      · exact h.1 z hz2

theorem sortSimDesc_go_pairwise {α : Type} [LinearOrder α] :
    ∀ (l acc : List (SimilarityResult α)), acc.Pairwise simGE →
      (l.foldl (fun acc x => insertSimDesc x acc) acc).Pairwise simGE := by
  intro l
  induction l with
  | nil => intro acc h; exact h
  | cons x l2 ih => intro acc h; exact ih _ (insertSimDesc_pairwise h)

theorem sortSimDesc_pairwise {α : Type} [LinearOrder α] (l : List (SimilarityResult α)) :
    (sortSimDesc l).Pairwise simGE :=
  sortSimDesc_go_pairwise l [] (by simp)

theorem insertSimDesc_filter_eq {α : Type} [LinearOrder α] {v : α}
    {x : SimilarityResult α} {l : List (SimilarityResult α)} (h : l.Pairwise simGE)
    (hx : x.similarity = v) :
    (insertSimDesc x l).filter (fun e => decide (e.similarity = v)) =
      l.filter (fun e => decide (e.similarity = v)) ++ [x] := by
  induction l with
  | nil => simp [insertSimDesc, hx]
  | cons y ys ih =>
    rw [List.pairwise_cons] at h
    unfold insertSimDesc
    split
    · rename_i hlt
      have hy : ¬ y.similarity = v := by rw [← hx]; exact ne_of_lt hlt
      have hnil : (y :: ys).filter (fun e => decide (e.similarity = v)) = [] := by
        rw [List.filter_eq_nil_iff]
        intro z hz
        rcases List.mem_cons.mp hz with hz | hz
        · subst hz; simpa using hy
        · have hle : z.similarity ≤ y.similarity := h.1 z hz
          have hzlt : z.similarity < x.similarity := lt_of_le_of_lt hle hlt
          simp only [decide_eq_true_eq]
          rw [← hx]; exact ne_of_lt hzlt
      have hstep : (x :: y :: ys).filter (fun e => decide (e.similarity = v)) =
          x :: (y :: ys).filter (fun e => decide (e.similarity = v)) := by
        rw [List.filter_cons]; simp [hx]
      rw [hstep, hnil]
      simp
    · simp only [List.filter_cons]
      by_cases hy : y.similarity = v
      · simp [hy, ih h.2]
      · simp [hy, ih h.2]

theorem insertSimDesc_filter_ne {α : Type} [LinearOrder α] {v : α}
    {x : SimilarityResult α} {l : List (SimilarityResult α)} (hx : ¬ x.similarity = v) :
    (insertSimDesc x l).filter (fun e => decide (e.similarity = v)) =
      l.filter (fun e => decide (e.similarity = v)) := by
  induction l with
  | nil => simp [insertSimDesc, hx]
  | cons y ys ih =>
    unfold insertSimDesc
    split
    · simp [List.filter_cons, hx]
    · simp only [List.filter_cons]
      by_cases hy : y.similarity = v
      · simp [hy, ih]
      · simp [hy, ih]

theorem sortSimDesc_go_filter {α : Type} [LinearOrder α] (v : α) :
    ∀ (l acc : List (SimilarityResult α)), acc.Pairwise simGE →
      (l.foldl (fun acc x => insertSimDesc x acc) acc).filter
          (fun e => decide (e.similarity = v)) =
        acc.filter (fun e => decide (e.similarity = v)) ++
          l.filter (fun e => decide (e.similarity = v)) := by
  intro l
  induction l with
  | nil => intro acc _; simp
  | cons x l2 ih =>
    intro acc hacc
    have step := ih (insertSimDesc x acc) (insertSimDesc_pairwise hacc)
    by_cases hx : x.similarity = v
    · rw [List.foldl_cons, step, insertSimDesc_filter_eq hacc hx]
      simp [List.filter_cons, hx]
    · rw [List.foldl_cons, step, insertSimDesc_filter_ne hx]
      simp [List.filter_cons, hx]

/-- Stability of the modelled JS sort: elements of any fixed similarity
appear in the sorted output exactly as they appear in the input. -/
theorem sortSimDesc_filter {α : Type} [LinearOrder α] (v : α)
    (l : List (SimilarityResult α)) :
    (sortSimDesc l).filter (fun e => decide (e.similarity = v)) =
      l.filter (fun e => decide (e.similarity = v)) := by
  simpa [sortSimDesc] using sortSimDesc_go_filter v l [] (by simp)

/-- Filtering a prefix yields a prefix of the filtered list. -/
theorem filter_take_exists_take {β : Type} (q : β → Bool) :
    ∀ (l : List β) (k : Nat), ∃ m, (l.take k).filter q = (l.filter q).take m := by
  intro l
  induction l with
  | nil => intro k; exact ⟨0, by simp⟩
  | cons x l2 ih =>
    intro k
    match k with
    | 0 => exact ⟨0, by simp⟩
    | k + 1 =>
      obtain ⟨m, hm⟩ := ih k
      by_cases hq : q x
      · exact ⟨m + 1, by simp [hq, hm]⟩
      · exact ⟨m, by simp [hq, hm]⟩

/-! ### Bridging the two dot-product loops -/

/-- Structural companion of both dot-product loops: the sum of pairwise
products up to the shorter length. -/
def dotZip : List ℚ → List ℚ → ℚ
  | x :: a, y :: b => x * y + dotZip a b
  | _, _ => 0

theorem dotZip_nil_right : ∀ (a : List ℚ), dotZip a [] = 0 := by
  intro a; cases a <;> rfl

theorem dotZip_comm : ∀ (a b : List ℚ), dotZip a b = dotZip b a := by
  intro a
  induction a with
  | nil => intro b; cases b <;> rfl
  | cons x a2 ih =>
    intro b
    cases b with
    | nil => rfl
    | cons y b2 => simp only [dotZip, ih, mul_comm]

theorem getD_zero_drop : ∀ (b : List ℚ) (n : Nat), b.getD n 0 = (b.drop n).getD 0 0 := by
  intro b
  induction b with
  | nil => intro n; cases n <;> rfl
  | cons y b2 ih =>
    intro n
    cases n with
    | zero => rfl
    | succ n => simp only [List.getD_cons_succ, List.drop_succ_cons]; exact ih n

theorem dotZip_cons_getD (x : ℚ) (a c : List ℚ) :
    dotZip (x :: a) c = x * c.getD 0 0 + dotZip a (c.drop 1) := by
  cases c with
  | nil => simp [dotZip, dotZip_nil_right]
  | cons y c2 => rfl

theorem dot_go (b : List ℚ) :
    ∀ (a : List ℚ) (n : Nat) (s : ℚ),
      (List.enumFrom n a).foldl (fun sum p => sum + p.2 * b.getD p.1 0) s =
        s + dotZip a (b.drop n) := by
  intro a
  induction a with
  | nil => intro n s; simp [dotZip]
  | cons x a2 ih =>
    intro n s
    rw [List.enumFrom_cons, List.foldl_cons, ih (n + 1)]
    rw [dotZip_cons_getD, getD_zero_drop b n]
    rw [show (b.drop n).drop 1 = b.drop (n + 1) by rw [List.drop_drop]]
    ring

theorem dot_eq_dotZip (a b : List ℚ) : dot a b = dotZip a b := by
  have h := dot_go b a 0 0
  rw [dot, List.enum, h, List.drop_zero, zero_add]

theorem cos_go (a b : List ℚ) :
    ∀ (t : List ℚ) (n : Nat) (s : ℚ), a.drop n = t →
      (List.range' n t.length).foldl (fun acc i => acc + a.getD i 0 * b.getD i 0) s =
        s + dotZip t (b.drop n) := by
  intro t
  induction t with
  | nil => intro n s _; simp [dotZip]
  | cons x t2 ih =>
    intro n s hdrop
    have hdrop2 : a.drop (n + 1) = t2 := by
      have h1 : (a.drop n).drop 1 = t2 := by rw [hdrop]; rfl
      rwa [List.drop_drop] at h1
    have hx : a.getD n 0 = x := by
      rw [getD_zero_drop a n, hdrop]; rfl
    rw [List.length_cons, List.range'_succ, List.foldl_cons, ih (n + 1) _ hdrop2]
    rw [dotZip_cons_getD, getD_zero_drop b n, hx]
    rw [show (b.drop n).drop 1 = b.drop (n + 1) by rw [List.drop_drop]]
    ring

theorem cosineSimilarity_eq_dotZip (a b : List ℚ) : cosineSimilarity a b = dotZip a b := by
  have h := cos_go a b a 0 0 (by simp)
  simpa [cosineSimilarity, List.range_eq_range'] using h

theorem cosineSimilarity_eq_dot (a b : List ℚ) : cosineSimilarity a b = dot a b := by
  rw [cosineSimilarity_eq_dotZip, dot_eq_dotZip]

/-! ### The two ranking implementations build the same entry list -/

theorem calcEntries_eq_filterMap (idx : Nat) (docs : List Document)
    (embs : List (List ℚ)) :
    calcEntries idx docs embs = (neighborEntries idx docs embs).filterMap id := by
  rw [neighborEntries, List.filterMap_map, calcEntries]
  apply List.filterMap_congr
  intro p _
  by_cases h : p.1 = idx
  · simp [Function.comp, h]
  · have h3 : ¬ idx = p.1 := fun h2 => h (Eq.symm h2)
    simp only [Function.comp, if_neg h, if_neg h3, id]
    rw [cosineSimilarity_eq_dot]

theorem calculateSingleDocSimilarities_eq_topSimilar (idx : Nat) (docs : List Document)
    (embs : List (List ℚ)) (n : Nat) :
    calculateSingleDocSimilarities idx docs embs n = topSimilar idx docs embs n := by
  rw [calculateSingleDocSimilarities, topSimilar, calcEntries_eq_filterMap]

/-! ### Size and membership of the entry list -/

theorem filterMap_skip_length {γ : Type} (g : Nat × Document → γ) (idx : Nat) :
    ∀ (l : List Document) (n : Nat),
      ((List.enumFrom n l).filterMap
          (fun p => if p.1 = idx then none else some (g p))).length
        = l.length - (if n ≤ idx ∧ idx < n + l.length then 1 else 0) := by
  intro l
  induction l with
  | nil => intro n; simp
  | cons d l2 ih =>
    intro n
    rw [List.enumFrom_cons]
    by_cases h : n = idx
    · rw [List.filterMap_cons_none (by simp [h])]
      rw [ih (n + 1)]
      simp only [List.length_cons]
      split_ifs <;> omega
    · rw [List.filterMap_cons_some (b := g (n, d)) (by simp [h])]
      rw [List.length_cons, ih (n + 1)]
      simp only [List.length_cons]
      split_ifs <;> omega

theorem neighborList_length (idx : Nat) (docs : List Document) (embs : List (List ℚ))
    (hidx : idx < docs.length) :
    ((neighborEntries idx docs embs).filterMap id).length = docs.length - 1 := by
  rw [neighborEntries, List.filterMap_map]
  have h := filterMap_skip_length
    (fun p => mkResult p.2 (round2 (dot (embs.getD idx []) (embs.getD p.1 [])))) idx docs 0
  simp only [List.enum] at h
  have hfun : (id ∘ fun p : Nat × Document =>
      if p.1 = idx then none
      else some (mkResult p.2 (round2 (dot (embs.getD idx []) (embs.getD p.1 []))))) =
      (fun p : Nat × Document =>
        if p.1 = idx then none
        else some (mkResult p.2 (round2 (dot (embs.getD idx []) (embs.getD p.1 []))))) := rfl
  rw [List.enum, hfun, h, if_pos (by omega)]

theorem mem_neighborList (idx : Nat) (docs : List Document) (embs : List (List ℚ))
    {e : SimilarityResult ℚ} (he : e ∈ (neighborEntries idx docs embs).filterMap id) :
    ∃ j d, docs[j]? = some d ∧ j ≠ idx ∧
      e = mkResult d (round2 (dot (embs.getD idx []) (embs.getD j []))) := by
  rw [neighborEntries, List.filterMap_map] at he
  obtain ⟨p, hp, hpe⟩ := List.mem_filterMap.mp he
  by_cases h : p.1 = idx
  · simp [Function.comp, h] at hpe
  · refine ⟨p.1, p.2, ?_, h, ?_⟩
    · exact List.mk_mem_enum_iff_getElem?.mp (by simpa using hp)
    · simp only [Function.comp, if_neg h, id] at hpe
      exact (Option.some_inj.mp hpe).symm

/-! ### Record (keyed-map) lemmas -/

theorem any_fst_iff {V : Type} (m : List (String × V)) (k : String) :
    m.any (fun p => decide (p.1 = k)) = true ↔ k ∈ m.map Prod.fst := by
  simp [List.any_eq_true, List.mem_map]

theorem recordSet_map_fst {V : Type} (m : List (String × V)) (k : String) (v : V) :
    (recordSet m k v).map Prod.fst =
      if m.any (fun p => decide (p.1 = k)) then m.map Prod.fst
      else m.map Prod.fst ++ [k] := by
  unfold recordSet
  split
  · rw [List.map_map]
    apply List.map_congr_left
    intro p _
    by_cases hp : p.1 = k
    · simp [Function.comp, hp]
    · simp [Function.comp, hp]
  · simp

theorem mem_fst_recordSet {V : Type} (m : List (String × V)) (k : String) (v : V)
    (k2 : String) :
    k2 ∈ (recordSet m k v).map Prod.fst ↔ k2 ∈ m.map Prod.fst ∨ k2 = k := by
  rw [recordSet_map_fst]
  split
  · rename_i h
    have hk : k ∈ m.map Prod.fst := (any_fst_iff m k).mp h
    constructor
    · exact Or.inl
    · rintro (h2 | rfl)
      · exact h2
      · exact hk
  · simp

theorem recordLookup_map_overwrite {V : Type} (k : String) (v : V) :
    ∀ (m : List (String × V)) (k2 : String),
      recordLookup (m.map (fun p => if p.1 = k then (k, v) else p)) k2 =
        if k2 = k then (if m.any (fun p => decide (p.1 = k)) then some v else none)
        else recordLookup m k2 := by
  intro m
  induction m with
  | nil =>
    intro k2
    simp [recordLookup]
  | cons p m2 ih =>
    intro k2
    simp only [List.map_cons, recordLookup, List.any_cons]
    by_cases hpk : p.1 = k
    · by_cases hk2 : k2 = k
      · subst hk2
        simp [recordLookup, hpk]
      · have h1 : ¬ k = k2 := fun h => hk2 h.symm
        have h2 : ¬ p.1 = k2 := fun h => hk2 (h.symm.trans hpk)
        simp [recordLookup, hpk, hk2, h1, h2, ih]
    · by_cases hk2 : k2 = k
      · subst hk2
        simp only [recordLookup, if_neg hpk, ih, if_pos rfl]
        simp only [Bool.or_eq_true, decide_eq_true_eq, if_true]
        split_ifs <;> tauto
      · by_cases hpk2 : p.1 = k2
        · simp [recordLookup, hpk, hpk2, hk2]
        · simp [recordLookup, hpk, hpk2, hk2, ih]

theorem recordLookup_append_single {V : Type} :
    ∀ (m : List (String × V)) (k : String) (v : V) (k2 : String),
      recordLookup (m ++ [(k, v)]) k2 =
        (recordLookup m k2).or (if k = k2 then some v else none) := by
  intro m
  induction m with
  | nil => intro k v k2; simp [recordLookup]
  | cons p m2 ih =>
    intro k v k2
    by_cases hp : p.1 = k2
    · simp [recordLookup, hp]
    · simp [recordLookup, hp, ih]

theorem recordLookup_eq_none_of_not_mem {V : Type} :
    ∀ (m : List (String × V)) (k : String), k ∉ m.map Prod.fst →
      recordLookup m k = none := by
  intro m
  induction m with
  | nil => intro k _; rfl
  | cons p m2 ih =>
    intro k hk
    simp only [List.map_cons, List.mem_cons] at hk
    push_neg at hk
    rw [recordLookup, if_neg (fun h : p.1 = k => hk.1 h.symm)]
    exact ih k hk.2

theorem recordLookup_recordSet {V : Type} (m : List (String × V)) (k : String) (v : V)
    (k2 : String) :
    recordLookup (recordSet m k v) k2 = if k2 = k then some v else recordLookup m k2 := by
  unfold recordSet
  split
  · rename_i h
    rw [recordLookup_map_overwrite k v m k2, h]
    simp
  · rename_i h
    rw [recordLookup_append_single m k v k2]
    by_cases hk2 : k2 = k
    · subst hk2
      have hnone : recordLookup m k2 = none := by
        apply recordLookup_eq_none_of_not_mem
        intro hmem
        exact h ((any_fst_iff m k2).mpr hmem)
      simp [hnone]
    · have h1 : ¬ k = k2 := fun h2 => hk2 h2.symm
      simp [hk2, h1]

/-! ### Folding assignments into a record -/

theorem foldl_recordSet_lookup {β V : Type} (key : β → String) (val : β → V) :
    ∀ (l : List β) (acc : List (String × V)) (k : String),
      recordLookup (l.foldl (fun a x => recordSet a (key x) (val x)) acc) k =
        ((l.reverse.find? (fun x => decide (key x = k))).map val).or
          (recordLookup acc k) := by
  intro l
  induction l with
  | nil => intro acc k; simp
  | cons x l2 ih =>
    intro acc k
    rw [List.foldl_cons, ih, List.reverse_cons, List.find?_append]
    cases hf : l2.reverse.find? (fun y => decide (key y = k)) with
    | some y => simp
    | none =>
      simp only [Option.none_or]
      rw [recordLookup_recordSet]
      by_cases hkx : key x = k
      · subst hkx
        simp [List.find?_cons]
      · have h1 : ¬ k = key x := fun h => hkx h.symm
        simp [List.find?_cons, hkx, h1]

theorem foldl_recordSet_mem_fst {β V : Type} (key : β → String) (val : β → V) :
    ∀ (l : List β) (acc : List (String × V)) (k : String),
      (k ∈ (l.foldl (fun a x => recordSet a (key x) (val x)) acc).map Prod.fst ↔
        k ∈ acc.map Prod.fst ∨ ∃ x ∈ l, key x = k) := by
  intro l
  induction l with
  | nil => intro acc k; simp
  | cons x l2 ih =>
    intro acc k
    rw [List.foldl_cons, ih, mem_fst_recordSet]
    constructor
    · rintro ((h | h) | h)
      · exact Or.inl h
      · exact Or.inr ⟨x, List.mem_cons_self x l2, h.symm⟩
      · obtain ⟨y, hy, hyk⟩ := h
        exact Or.inr ⟨y, List.mem_cons_of_mem x hy, hyk⟩
    · rintro (h | ⟨y, hy, hyk⟩)
      · exact Or.inl (Or.inl h)
      · rcases List.mem_cons.mp hy with rfl | hy2
        · exact Or.inl (Or.inr hyk.symm)
        · exact Or.inr ⟨y, hy2, hyk⟩

theorem foldl_recordSet_nodup_keys {β V : Type} (key : β → String) (val : β → V) :
    ∀ (l : List β) (acc : List (String × V)),
      (acc.map Prod.fst ++ l.map key).Nodup →
      (l.foldl (fun a x => recordSet a (key x) (val x)) acc).map Prod.fst =
        acc.map Prod.fst ++ l.map key := by
  intro l
  induction l with
  | nil => intro acc _; simp
  | cons x l2 ih =>
    intro acc hnd
    have hkx : key x ∉ acc.map Prod.fst := by
      intro hmem
      exact (List.nodup_append.mp hnd).2.2 hmem
        (by rw [List.map_cons]; exact List.mem_cons_self _ _)
    have hany : acc.any (fun p => decide (p.1 = key x)) = false := by
      rw [Bool.eq_false_iff]
      intro htrue
      exact hkx ((any_fst_iff acc (key x)).mp htrue)
    have hkeys : (recordSet acc (key x) (val x)).map Prod.fst =
        acc.map Prod.fst ++ [key x] := by
      rw [recordSet_map_fst, if_neg (by rw [hany]; simp)]
    have hnd2 : ((recordSet acc (key x) (val x)).map Prod.fst ++ l2.map key).Nodup := by
      rw [hkeys, List.append_assoc]
      simpa using hnd
    rw [List.foldl_cons, ih _ hnd2, hkeys, List.append_assoc]
    rfl

/-! ### Document-loading lemmas -/

theorem loadAllDocuments_append (strip : String → String) (l1 l2 : List RawFile) :
    loadAllDocuments strip (l1 ++ l2) =
      loadAllDocuments strip l1 ++ loadAllDocuments strip l2 := by
  unfold loadAllDocuments
  exact List.filterMap_append l1 l2 (processDocumentFile strip)

theorem processDocumentFile_eq_none {strip : String → String} {f : RawFile}
    (hex : isValidSlug f.data.slug = false ∨ f.data.draft = JsVal.bool true) :
    processDocumentFile strip f = none := by
  unfold processDocumentFile
  rcases hex with h | h
  · simp [h]
  · by_cases h2 : isValidSlug f.data.slug
    · simp [h2, h]
    · simp [h2]

/-! ### Vector-normalization lemmas -/

theorem sumSqR_nonneg (v : List ℝ) : 0 ≤ sumSqR v := by
  unfold sumSqR
  apply List.sum_nonneg
  intro x hx
  obtain ⟨y, _, rfl⟩ := List.mem_map.mp hx
  exact mul_self_nonneg y

theorem sumSqR_map_div (v : List ℝ) (L : ℝ) :
    sumSqR (v.map (fun x => x / L)) = sumSqR v / (L * L) := by
  induction v with
  | nil => simp [sumSqR]
  | cons x v2 ih =>
    simp only [sumSqR, List.map_cons, List.sum_cons] at *
    rw [ih, div_mul_div_comm, div_add_div_same]

theorem hypotR_mul_self (v : List ℝ) : hypotR v * hypotR v = sumSqR v := by
  unfold hypotR
  exact Real.mul_self_sqrt (sumSqR_nonneg v)

/-! ### Second-pass stability of the text pipeline -/

/-- No occurrence of the rule-marker head `Rule\s\d+:` at any position. -/
def ruleFree (cs : List Char) : Bool :=
  cs.tails.all (fun t => (ruleHead t).isNone)

/-- No two adjacent whitespace characters. -/
def noDoubleWs : List Char → Bool
  | c1 :: c2 :: rest => !(isJsWs c1 && isJsWs c2) && noDoubleWs (c2 :: rest)
  | _ => true

/-- The conjunction of conditions under which every pass of the regex chain
leaves a text unchanged: it is a single line (no newline); as that one line
it matches none of the line-removal patterns; it contains no rule-marker
head; and its whitespace is already normalized (no doubled whitespace, no
leading or trailing whitespace). -/
def secondPassInert (s : String) : Bool :=
  s.data.all (fun c => c != '\n') &&
  (matchImportLine s.data true).isNone &&
  (matchExportLine s.data true).isNone &&
  (matchHeading s.data true).isNone &&
  (matchCaps s.data true).isNone &&
  (matchTable s.data true).isNone &&
  ruleFree s.data &&
  noDoubleWs s.data &&
  !(isJsWs (s.data.headD 'a')) &&
  !(isJsWs (s.data.getLastD 'a'))

theorem replaceScan_id_noStart {tryM : List Char → Bool → Option (List Char × List Char)}
    {repl : List Char → List Char} (hF : ∀ cs, tryM cs false = none) :
    ∀ (fuel : Nat) (cs : List Char), (∀ c ∈ cs, c ≠ '\n') →
      replaceScan tryM repl fuel cs false = cs := by
  intro fuel
  induction fuel with
  | zero => intro cs _; rfl
  | succ fuel ih =>
    intro cs hnl
    cases cs with
    | nil => simp [replaceScan, hF]
    | cons c cs2 =>
      have hc : c ≠ '\n' := hnl c (List.mem_cons_self c cs2)
      simp only [replaceScan, hF]
      rw [show (c == '\n') = false from beq_eq_false_iff_ne.mpr hc]
      rw [ih cs2 (fun d hd => hnl d (List.mem_cons_of_mem c hd))]

theorem replaceScan_id_start {tryM : List Char → Bool → Option (List Char × List Char)}
    {repl : List Char → List Char} (hF : ∀ cs, tryM cs false = none)
    {cs : List Char} (hT : tryM cs true = none) (hnl : ∀ c ∈ cs, c ≠ '\n')
    (fuel : Nat) : replaceScan tryM repl fuel cs true = cs := by
  cases fuel with
  | zero => rfl
  | succ fuel =>
    cases cs with
    | nil => simp [replaceScan, hT]
    | cons c cs2 =>
      have hc : c ≠ '\n' := hnl c (List.mem_cons_self c cs2)
      simp only [replaceScan, hT]
      rw [show (c == '\n') = false from beq_eq_false_iff_ne.mpr hc]
      rw [replaceScan_id_noStart hF fuel cs2 (fun d hd => hnl d (List.mem_cons_of_mem c hd))]

theorem replaceScan_id_suffix {tryM : List Char → Bool → Option (List Char × List Char)}
    {repl : List Char → List Char} :
    ∀ (fuel : Nat) (cs : List Char) (b : Bool),
      (∀ cs2 b2, cs2 <:+ cs → tryM cs2 b2 = none) →
      replaceScan tryM repl fuel cs b = cs := by
  intro fuel
  induction fuel with
  | zero => intro cs b _; rfl
  | succ fuel ih =>
    intro cs b h
    have h0 : tryM cs b = none := h cs b (List.suffix_refl cs)
    cases cs with
    | nil => simp [replaceScan, h0]
    | cons c cs2 =>
      simp only [replaceScan, h0]
      rw [ih cs2 (c == '\n')
        (fun cs3 b2 hs => h cs3 b2 (hs.trans (List.suffix_cons c cs2)))]

theorem matchImportLine_false (cs : List Char) : matchImportLine cs false = none := by
  simp [matchImportLine, matchPrefixLine]

theorem matchExportLine_false (cs : List Char) : matchExportLine cs false = none := by
  simp [matchExportLine, matchPrefixLine]

theorem matchHeading_false (cs : List Char) : matchHeading cs false = none := by
  simp [matchHeading]

theorem matchCaps_false (cs : List Char) : matchCaps cs false = none := by
  simp [matchCaps]

theorem matchTable_false (cs : List Char) : matchTable cs false = none := by
  simp [matchTable]

theorem matchRule_eq_none {cs : List Char} (h : ruleHead cs = none) (b : Bool) :
    matchRule cs b = none := by
  simp [matchRule, h]

theorem ruleFree_suffix {cs s : List Char} (h : ruleFree cs = true) (hs : s <:+ cs) :
    ruleHead s = none := by
  unfold ruleFree at h
  rw [List.all_eq_true] at h
  have hmem : s ∈ cs.tails := (List.mem_tails s cs).mpr hs
  exact Option.isNone_iff_eq_none.mp (h s hmem)

theorem noDoubleWs_tail {c : Char} {r : List Char} (h : noDoubleWs (c :: r) = true) :
    noDoubleWs r = true := by
  cases r with
  | nil => rfl
  | cons c2 r2 =>
    unfold noDoubleWs at h
    simp only [Bool.and_eq_true] at h
    exact h.2

theorem noDoubleWs_suffix {cs s : List Char} (h : noDoubleWs cs = true) (hs : s <:+ cs) :
    noDoubleWs s = true := by
  induction cs with
  | nil =>
    rw [List.suffix_nil.mp hs]
    rfl
  | cons c cs2 ih =>
    rcases List.suffix_cons_iff.mp hs with rfl | hs2
    · exact h
    · exact ih (noDoubleWs_tail h) hs2

theorem matchWs2_eq_none {s : List Char} (h : noDoubleWs s = true) (b : Bool) :
    matchWs2 s b = none := by
  cases s with
  | nil => rfl
  | cons c1 s2 =>
    cases s2 with
    | nil =>
      unfold matchWs2
      by_cases h1 : isJsWs c1 = true
      · simp [List.takeWhile_cons, h1]
      · simp [List.takeWhile_cons, h1]
    | cons c2 s3 =>
      unfold noDoubleWs at h
      simp only [Bool.and_eq_true] at h
      have hna := h.1
      unfold matchWs2
      by_cases h1 : isJsWs c1 = true
      · have h2 : isJsWs c2 = false := by
          cases h2 : isJsWs c2
          · rfl
          · rw [h1, h2] at hna; simp at hna
        simp [List.takeWhile_cons, h1, h2]
      · simp [List.takeWhile_cons, h1]

theorem matchNl3_eq_none {s : List Char} (h : ∀ c ∈ s, c ≠ '\n') (b : Bool) :
    matchNl3 s b = none := by
  cases s with
  | nil => rfl
  | cons c s2 =>
    have hc : (c == '\n') = false :=
      beq_eq_false_iff_ne.mpr (h c (List.mem_cons_self c s2))
    unfold matchNl3
    simp [List.takeWhile_cons, hc]

theorem matchNl2_eq_none {s : List Char} (h : ∀ c ∈ s, c ≠ '\n') (b : Bool) :
    matchNl2 s b = none := by
  cases s with
  | nil => rfl
  | cons c1 s2 =>
    cases s2 with
    | nil => rfl
    | cons c2 s3 =>
      have hc : (c1 == '\n') = false :=
        beq_eq_false_iff_ne.mpr (h c1 (List.mem_cons_self c1 _))
      simp [matchNl2, hc]

theorem matchNl1_eq_none {s : List Char} (h : ∀ c ∈ s, c ≠ '\n') (b : Bool) :
    matchNl1 s b = none := by
  cases s with
  | nil => rfl
  | cons c s2 =>
    have hc : (c == '\n') = false :=
      beq_eq_false_iff_ne.mpr (h c (List.mem_cons_self c s2))
    simp [matchNl1, hc]

theorem trimL_id {cs : List Char} (h1 : isJsWs (cs.headD 'a') = false)
    (h2 : isJsWs (cs.getLastD 'a') = false) : trimL cs = cs := by
  cases cs with
  | nil => rfl
  | cons c cs2 =>
    simp only [List.headD_cons] at h1
    unfold trimL
    rw [List.dropWhile_cons, h1, if_neg Bool.false_ne_true]
    cases hrev : (c :: cs2).reverse with
    | nil =>
      exfalso
      have hlen := congrArg List.length hrev
      simp at hlen
    | cons d ds =>
      have hd : (c :: cs2).getLast? = some d := by
        rw [← List.head?_reverse, hrev]
        rfl
      have hdlast : isJsWs d = false := by
        have hgl : (c :: cs2).getLastD 'a' = d := by
          rw [List.getLastD_eq_getLast?, hd]
          rfl
        rw [← hgl]
        exact h2
      rw [List.dropWhile_cons, hdlast, if_neg Bool.false_ne_true]
      rw [← hrev, List.reverse_reverse]

theorem getPlainTextPostL_id {cs : List Char}
    (hnl : ∀ c ∈ cs, c ≠ '\n')
    (himp : matchImportLine cs true = none)
    (hexp : matchExportLine cs true = none)
    (hhead : matchHeading cs true = none)
    (hcaps : matchCaps cs true = none)
    (htab : matchTable cs true = none)
    (hrule : ruleFree cs = true)
    (hws : noDoubleWs cs = true)
    (hh : isJsWs (cs.headD 'a') = false)
    (hl : isJsWs (cs.getLastD 'a') = false) :
    getPlainTextPostL cs = cs := by
  simp only [getPlainTextPostL, runReplace]
  rw [replaceScan_id_start matchImportLine_false himp hnl]
  rw [replaceScan_id_start matchExportLine_false hexp hnl]
  rw [replaceScan_id_start matchHeading_false hhead hnl]
  rw [replaceScan_id_start matchCaps_false hcaps hnl]
  rw [replaceScan_id_start matchTable_false htab hnl]
  rw [replaceScan_id_suffix cs.length cs true
    (fun s2 b2 hs => matchRule_eq_none (ruleFree_suffix hrule hs) b2)]
  rw [replaceScan_id_suffix cs.length cs true
    (fun s2 b2 hs => matchNl3_eq_none (fun c hc => hnl c (hs.subset hc)) b2)]
  rw [replaceScan_id_suffix cs.length cs true
    (fun s2 b2 hs => matchNl2_eq_none (fun c hc => hnl c (hs.subset hc)) b2)]
  rw [replaceScan_id_suffix cs.length cs true
    (fun s2 b2 hs => matchNl1_eq_none (fun c hc => hnl c (hs.subset hc)) b2)]
  rw [replaceScan_id_suffix cs.length cs true
    (fun s2 b2 hs => matchWs2_eq_none (noDoubleWs_suffix hws hs) b2)]
  exact trimL_id hh hl

theorem getPlainTextPost_id {s : String} (h : secondPassInert s = true) :
    getPlainTextPost s = s := by
  unfold secondPassInert at h
  simp only [Bool.and_eq_true] at h
  obtain ⟨⟨⟨⟨⟨⟨⟨⟨⟨h1, h2⟩, h3⟩, h4⟩, h5⟩, h6⟩, h7⟩, h8⟩, h9⟩, h10⟩ := h
  have hnl : ∀ c ∈ s.data, c ≠ '\n' := by
    rw [List.all_eq_true] at h1
    intro c hc
    simpa using h1 c hc
  have hh : isJsWs (s.data.headD 'a') = false := by
    cases hx : isJsWs (s.data.headD 'a')
    · rfl
    · rw [hx] at h9; simp at h9
  have hl : isJsWs (s.data.getLastD 'a') = false := by
    cases hx : isJsWs (s.data.getLastD 'a')
    · rfl
    · rw [hx] at h10; simp at h10
  unfold getPlainTextPost
  rw [getPlainTextPostL_id hnl
    (Option.isNone_iff_eq_none.mp h2) (Option.isNone_iff_eq_none.mp h3)
    (Option.isNone_iff_eq_none.mp h4) (Option.isNone_iff_eq_none.mp h5)
    (Option.isNone_iff_eq_none.mp h6) h7 h8 hh hl]

/-! ### Concrete inputs used by counterexamples and witnesses -/

/-- Document `A` of the spec's end-to-end scenario. -/
def docA : Document := ⟨"A.md", "", ⟨.str "A", .undef, []⟩⟩

/-- Document `B` of the spec's end-to-end scenario. -/
def docB : Document := ⟨"B.md", "", ⟨.str "B", .undef, []⟩⟩

/-- Document `C` of the spec's end-to-end scenario. -/
def docC : Document := ⟨"C.md", "", ⟨.str "C", .undef, []⟩⟩

/-- The scenario's normalized embeddings `A=[1,0], B=[0.8,0.6], C=[-1,0]`. -/
def embsABC : List (List ℚ) := [[1, 0], [0.8, 0.6], [-1, 0]]

/-- Two documents sharing the slug `s` (duplicate-slug scenario). -/
def dupDoc1 : Document := ⟨"p1", "", ⟨.str "s", .undef, []⟩⟩

/-- Second document with the same slug `s` as `dupDoc1`. -/
def dupDoc2 : Document := ⟨"p2", "", ⟨.str "s", .undef, []⟩⟩

/-- An ordinary (kept) content file with slug `x`. -/
def activeFile : RawFile := ⟨"g.md", "a", ⟨.str "x", .undef, []⟩⟩

/-- A draft file whose slug collides with `activeFile`'s. -/
def draftFileX : RawFile := ⟨"f.md", "b", ⟨.str "x", .bool true, []⟩⟩

/-- A draft file with its own slug `y`. -/
def draftFileY : RawFile := ⟨"h.md", "b", ⟨.str "y", .bool true, []⟩⟩

/-! ### Evaluating the end-to-end scenario -/

theorem topSimilar_ABC_0 : topSimilar 0 [docA, docB, docC] embsABC 2 =
    [mkResult docB 0.8, mkResult docC (-1)] := by
  norm_num [topSimilar, neighborEntries, mkResult, docA, docB, docC, embsABC, dot,
    round2, sortSimDesc, insertSimDesc, List.enum, List.enumFrom, List.filterMap_cons,
    List.filterMap_nil, List.foldl_cons, List.foldl_nil, List.take_succ_cons,
    List.take_zero]

theorem topSimilar_ABC_1 : topSimilar 1 [docA, docB, docC] embsABC 2 =
    [mkResult docA 0.8, mkResult docC (-0.8)] := by
  norm_num [topSimilar, neighborEntries, mkResult, docA, docB, docC, embsABC, dot,
    round2, sortSimDesc, insertSimDesc, List.enum, List.enumFrom, List.filterMap_cons,
    List.filterMap_nil, List.foldl_cons, List.foldl_nil, List.take_succ_cons,
    List.take_zero]

theorem topSimilar_ABC_2 : topSimilar 2 [docA, docB, docC] embsABC 2 =
    [mkResult docB (-0.8), mkResult docA (-1)] := by
  norm_num [topSimilar, neighborEntries, mkResult, docA, docB, docC, embsABC, dot,
    round2, sortSimDesc, insertSimDesc, List.enum, List.enumFrom, List.filterMap_cons,
    List.filterMap_nil, List.foldl_cons, List.foldl_nil, List.take_succ_cons,
    List.take_zero]

/-- Self-dot of a rational vector is its sum of squares. -/
def sumSqQ (v : List ℚ) : ℚ := (v.map (fun x => x * x)).sum

theorem dotZip_self : ∀ (a : List ℚ), dotZip a a = sumSqQ a := by
  intro a
  induction a with
  | nil => rfl
  | cons x a2 ih =>
    simp only [dotZip, sumSqQ, List.map_cons, List.sum_cons] at ih ⊢
    rw [ih]

/-! ### The claims -/

/-- C1: for every documents list, aligned embeddings list, in-bounds source
index and `k`, `topSimilar` never contains an entry for the source document
itself (every returned entry is built from some index other than the
source), has length at most `min(k, N-1)`, and its similarity values are in
non-increasing order. -/
theorem claim_C1_topSimilar_sound (docs : List Document) (embs : List (List ℚ))
    (idx k : Nat) (hidx : idx < docs.length) (halign : docs.length = embs.length) :
    (∀ e ∈ topSimilar idx docs embs k, ∃ j d, docs[j]? = some d ∧ j ≠ idx ∧
        e = mkResult d (round2 (dot (embs.getD idx []) (embs.getD j [])))) ∧
    (topSimilar idx docs embs k).length ≤ min k (docs.length - 1) ∧
    (topSimilar idx docs embs k).Pairwise simGE := by
  refine ⟨?_, ?_, ?_⟩
  · intro e he
    have h1 : e ∈ sortSimDesc ((neighborEntries idx docs embs).filterMap id) := by
      unfold topSimilar at he
      exact List.take_subset k _ he
    have h2 : e ∈ (neighborEntries idx docs embs).filterMap id :=
      (sortSimDesc_perm _).mem_iff.mp h1
    exact mem_neighborList idx docs embs h2
  · unfold topSimilar
    rw [List.length_take]
    rw [(sortSimDesc_perm _).length_eq, neighborList_length idx docs embs hidx]
  · unfold topSimilar
    exact List.Pairwise.sublist (List.take_sublist _ _) (sortSimDesc_pairwise _)

/-- Witness for C1 at a concrete two-document corpus. -/
theorem claim_C1_topSimilar_sound_witness :
    (∀ e ∈ topSimilar 0 [dupDoc1, dupDoc2] [[1], [0]] 5, ∃ j d,
        [dupDoc1, dupDoc2][j]? = some d ∧ j ≠ 0 ∧
        e = mkResult d (round2 (dot (([[1], [0]] : List (List ℚ)).getD 0 [])
          (([[1], [0]] : List (List ℚ)).getD j [])))) ∧
    (topSimilar 0 [dupDoc1, dupDoc2] [[1], [0]] 5).length ≤
      min 5 ([dupDoc1, dupDoc2].length - 1) ∧
    (topSimilar 0 [dupDoc1, dupDoc2] [[1], [0]] 5).Pairwise simGE :=
  claim_C1_topSimilar_sound [dupDoc1, dupDoc2] [[1], [0]] 0 5 (by decide) (by decide)

/-- C4: in the top-K ranking, entries of equal rounded similarity appear in
the output in the same relative order as in the corpus-order entry list
(the output's entries of any fixed score form a prefix of that score's
entries in corpus iteration order): the JS sort is stable. -/
theorem claim_C4_stable_tie_break (docs : List Document) (embs : List (List ℚ))
    (idx k : Nat) (v : ℚ) :
    ∃ m, (topSimilar idx docs embs k).filter (fun e => decide (e.similarity = v)) =
      (((neighborEntries idx docs embs).filterMap id).filter
        (fun e => decide (e.similarity = v))).take m := by
  unfold topSimilar
  obtain ⟨m, hm⟩ := filter_take_exists_take (fun e => decide (e.similarity = v))
    (sortSimDesc ((neighborEntries idx docs embs).filterMap id)) k
  exact ⟨m, by rw [hm, sortSimDesc_filter]⟩

/-- C5 counterexample: the spec's expected `topSimilar(C) = [A (-1.00),
B (-0.80)]` is not what the code returns — the code sorts by descending
similarity, so `B (-0.80)` precedes `A (-1.00)`. -/
theorem claim_C5_counterexample :
    topSimilar 2 [docA, docB, docC] embsABC 2 ≠
      [mkResult docA (-1), mkResult docB (-0.8)] := by
  rw [topSimilar_ABC_2]
  intro h
  have h1 := congrArg (fun l => (l.headD (mkResult docA 0)).path) h
  simp [mkResult, docA, docB] at h1

/-- C5 amended: in the scenario with embeddings `A=[1,0], B=[0.8,0.6],
C=[-1,0]` and `k=2`, the code returns `topSimilar(A) = [B (0.80),
C (-1.00)]`, `topSimilar(B) = [A (0.80), C (-0.80)]` and `topSimilar(C) =
[B (-0.80), A (-1.00)]` (descending order; the spec's expected row for `C`
lists the two entries in ascending order instead). -/
theorem claim_C5_scenario :
    topSimilar 0 [docA, docB, docC] embsABC 2 = [mkResult docB 0.8, mkResult docC (-1)] ∧
    topSimilar 1 [docA, docB, docC] embsABC 2 = [mkResult docA 0.8, mkResult docC (-0.8)] ∧
    topSimilar 2 [docA, docB, docC] embsABC 2 = [mkResult docB (-0.8), mkResult docA (-1)] :=
  ⟨topSimilar_ABC_0, topSimilar_ABC_1, topSimilar_ABC_2⟩

/-- C8: for equal-length unit vectors, both dot-product implementations are
symmetric, and the self-similarity of a unit vector is exactly 1 in the
exact-arithmetic idealization (within floating tolerance in IEEE terms). -/
theorem claim_C8_similarity_symm_self (a b : List ℚ) (hlen : a.length = b.length)
    (ha : sumSqQ a = 1) (hb : sumSqQ b = 1) :
    dot a b = dot b a ∧ cosineSimilarity a b = cosineSimilarity b a ∧
    dot a a = 1 ∧ cosineSimilarity a a = 1 := by
  have hsym : dotZip a b = dotZip b a := dotZip_comm a b
  have hself : dotZip a a = 1 := by rw [dotZip_self]; exact ha
  refine ⟨?_, ?_, ?_, ?_⟩
  · rw [dot_eq_dotZip, dot_eq_dotZip, hsym]
  · rw [cosineSimilarity_eq_dotZip, cosineSimilarity_eq_dotZip, hsym]
  · rw [dot_eq_dotZip, hself]
  · rw [cosineSimilarity_eq_dotZip, hself]

/-- Witness for C8 at the unit vectors `[3/5, 4/5]` and `[1, 0]`. -/
theorem claim_C8_similarity_symm_self_witness :
    dot [3/5, 4/5] [1, 0] = dot [1, 0] [3/5, 4/5] ∧
    cosineSimilarity [3/5, 4/5] [1, 0] = cosineSimilarity [1, 0] [3/5, 4/5] ∧
    dot [3/5, 4/5] [3/5, 4/5] = 1 ∧
    cosineSimilarity [3/5, 4/5] [3/5, 4/5] = 1 :=
  claim_C8_similarity_symm_self [3/5, 4/5] [1, 0] (by decide)
    (by norm_num [sumSqQ]) (by norm_num [sumSqQ])

/-- C10: the two top-K ranking implementations — the verbose loop-based
`calculateSingleDocSimilarities` and the compact map/filter/sort-based
`topSimilar` — are extensionally equal: same entries in the same order for
every documents list, aligned embeddings list, in-bounds index and `k`. -/
theorem claim_C10_implementations_equal (docs : List Document) (embs : List (List ℚ))
    (idx n : Nat) (hidx : idx < docs.length) (halign : docs.length = embs.length) :
    calculateSingleDocSimilarities idx docs embs n = topSimilar idx docs embs n :=
  calculateSingleDocSimilarities_eq_topSimilar idx docs embs n

/-- Witness for C10 at a concrete two-document corpus. -/
theorem claim_C10_implementations_equal_witness :
    calculateSingleDocSimilarities 0 [dupDoc1, dupDoc2] [[1], [0]] 5 =
      topSimilar 0 [dupDoc1, dupDoc2] [[1], [0]] 5 :=
  claim_C10_implementations_equal [dupDoc1, dupDoc2] [[1], [0]] 0 5 (by decide) (by decide)

/-- C2 counterexample: two documents share the slug `s`, yet building the
corpus result does not fail — it silently overwrites: the single key `s`
holds the results computed for the LATER document (whose neighbour is
`dupDoc1`), and the key list collapses to one entry instead of one per
document. -/
theorem claim_C2_counterexample :
    computeAllSimilarities [dupDoc1, dupDoc2] [[1], [1]] 5 =
      [("s", [mkResult dupDoc1 1])] ∧
    (computeAllSimilarities [dupDoc1, dupDoc2] [[1], [1]] 5).map Prod.fst ≠
      [keyStr dupDoc1.frontmatter.slug, keyStr dupDoc2.frontmatter.slug] := by
  have heval : computeAllSimilarities [dupDoc1, dupDoc2] [[1], [1]] 5 =
      [("s", [mkResult dupDoc1 1])] := by
    norm_num [computeAllSimilarities, calculateSingleDocSimilarities, calcEntries,
      cosineSimilarity, round2, mkResult, dupDoc1, dupDoc2, keyStr, recordSet,
      sortSimDesc, insertSimDesc, List.enum, List.enumFrom, List.filterMap_cons,
      List.filterMap_nil, List.foldl_cons, List.foldl_nil, List.take_succ_cons,
      List.take_zero, List.range_succ]
  refine ⟨heval, ?_⟩
  rw [heval]
  intro h
  have h1 := congrArg List.length h
  simp [dupDoc1, dupDoc2, keyStr] at h1

/-- C2 amended: the operation never fails.  When all slugs are distinct the
result has exactly one key per document, in corpus order; when slugs repeat,
the key is silently overwritten and ends up bound to the ranked neighbours
of the LAST document bearing that slug. -/
theorem claim_C2_overwrite (documents : List Document) (embeddings : List (List ℚ))
    (topN : Nat) :
    ((documents.map (fun d => keyStr d.frontmatter.slug)).Nodup →
      (computeAllSimilarities documents embeddings topN).map Prod.fst =
        documents.map (fun d => keyStr d.frontmatter.slug)) ∧
    (∀ k, recordLookup (computeAllSimilarities documents embeddings topN) k =
      (documents.enum.reverse.find?
          (fun p => decide (keyStr p.2.frontmatter.slug = k))).map
        (fun p => calculateSingleDocSimilarities p.1 documents embeddings topN)) := by
  have hmap : documents.enum.map (fun p => keyStr p.2.frontmatter.slug) =
      documents.map (fun d => keyStr d.frontmatter.slug) := by
    rw [show (fun p : Nat × Document => keyStr p.2.frontmatter.slug) =
      (fun d : Document => keyStr d.frontmatter.slug) ∘ Prod.snd from rfl]
    rw [← List.map_map, List.enum_map_snd]
  constructor
  · intro hnd
    have h := foldl_recordSet_nodup_keys
      (fun p : Nat × Document => keyStr p.2.frontmatter.slug)
      (fun p : Nat × Document => calculateSingleDocSimilarities p.1
        documents embeddings topN)
      documents.enum [] (by rw [List.map_nil, List.nil_append, hmap]; exact hnd)
    rw [List.map_nil, List.nil_append, hmap] at h
    exact h
  · intro k
    have h := foldl_recordSet_lookup
      (fun p : Nat × Document => keyStr p.2.frontmatter.slug)
      (fun p : Nat × Document => calculateSingleDocSimilarities p.1
        documents embeddings topN)
      documents.enum [] k
    simp only [recordLookup, Option.or_none] at h
    exact h

/-- Witness for C2's amended statement at a distinct-slug corpus. -/
theorem claim_C2_overwrite_witness :
    (computeAllSimilarities [docA, docB] [[1], [1]] 5).map Prod.fst =
      [docA, docB].map (fun d => keyStr d.frontmatter.slug) :=
  (claim_C2_overwrite [docA, docB] [[1], [1]] 5).1 (by decide)

/-- C7: normalization yields a vector of Euclidean norm exactly 1 (within
floating tolerance in IEEE terms) whenever the input's norm is nonzero, and
returns the vector unchanged — performing no division — when its norm is
zero. -/
theorem claim_C7_normalize_unit (v : List ℝ) :
    (hypotR v ≠ 0 → hypotR (normalize v) = 1) ∧
    (hypotR v = 0 → normalize v = v) := by
  constructor
  · intro hne
    have hS : sumSqR v ≠ 0 := by
      intro h
      exact hne (by rw [hypotR, h, Real.sqrt_zero])
    unfold normalize
    rw [if_neg hne]
    show Real.sqrt (sumSqR (v.map (fun x => x / hypotR v))) = 1
    rw [sumSqR_map_div, hypotR_mul_self, div_self hS, Real.sqrt_one]
  · intro h0
    unfold normalize
    rw [if_pos h0]

/-- Witness for C7 at the vector `[3, 4]` (norm 5) and the zero vector. -/
theorem claim_C7_normalize_unit_witness :
    (hypotR [(3 : ℝ), 4] ≠ 0 ∧ hypotR (normalize [(3 : ℝ), 4]) = 1) ∧
    (hypotR [(0 : ℝ)] = 0 ∧ normalize [(0 : ℝ)] = [0]) := by
  have hne : hypotR [(3 : ℝ), 4] ≠ 0 := by
    have h25 : sumSqR [(3 : ℝ), 4] = 25 := by norm_num [sumSqR]
    unfold hypotR
    rw [h25, Real.sqrt_ne_zero']
    norm_num
  have h0 : hypotR [(0 : ℝ)] = 0 := by
    have hz : sumSqR [(0 : ℝ)] = 0 := by norm_num [sumSqR]
    unfold hypotR
    rw [hz, Real.sqrt_zero]
  exact ⟨⟨hne, (claim_C7_normalize_unit [3, 4]).1 hne⟩,
    ⟨h0, (claim_C7_normalize_unit [0]).2 h0⟩⟩

/-- C3 counterexample: the compact variant performs no shape or count
validation.  With one loaded document but a model response claiming
`dims = [2, 1]` (first dimension 2, not matching the single input text),
the run does not abort: it produces and saves a similarity-result map. -/
theorem claim_C3_counterexample :
    runV2 id [activeFile] ⟨[2, 1], [1, 1]⟩ 5 =
      some [("x", ([] : List (SimilarityResult ℝ)))] := by
  rfl

/-- C3 amended: no `ShapeError` or `CountMismatchError` is raised anywhere.
The verbose variant signals a malformed (fewer than two dimensions) or
count-mismatched embedding output in-band by returning an empty embedding
list, whereupon the orchestrator aborts the run with no similarity results;
the compact variant performs no such validation at all (see the
counterexample, where it produces output despite a count mismatch). -/
theorem claim_C3_v1_abort (strip : String → String) (files : List RawFile)
    (out : EmbeddingOutput) (topN : Nat)
    (hdocs : loadAllDocuments strip files ≠ [])
    (hbad : out.dims.length < 2 ∨
      out.dims.getD 0 0 ≠ (loadAllDocuments strip files).length) :
    generateDocumentEmbeddings (loadAllDocuments strip files) out = [] ∧
    runV1 strip files out topN = none := by
  have hne : (loadAllDocuments strip files).isEmpty = false := by
    rw [Bool.eq_false_iff]
    intro h
    exact hdocs (List.isEmpty_iff.mp h)
  have hgen : generateDocumentEmbeddings (loadAllDocuments strip files) out = [] := by
    unfold generateDocumentEmbeddings
    split_ifs with h1 h2 h3
    · rfl
    · rfl
    · rfl
    · exfalso
      rcases hbad with h | h
      · exact h2 h
      · exact h3 h
  refine ⟨hgen, ?_⟩
  have hfiles : files.isEmpty = false := by
    rw [Bool.eq_false_iff]
    intro h
    apply hdocs
    rw [List.isEmpty_iff.mp h]
    rfl
  unfold runV1
  rw [if_neg (by rw [hfiles]; simp)]
  rw [if_neg (by rw [hne]; simp)]
  rw [if_pos (by rw [hgen, hne]; rfl)]

/-- Witness for C3's amended statement: one loaded document, a response with
a single dimension entry. -/
theorem claim_C3_v1_abort_witness :
    generateDocumentEmbeddings (loadAllDocuments id [activeFile]) ⟨[1], []⟩ = [] ∧
    runV1 id [activeFile] ⟨[1], []⟩ 5 = none :=
  claim_C3_v1_abort id [activeFile] ⟨[1], []⟩ 5 (by decide) (Or.inl (by decide))

/-- C6 counterexample: `draftFileX` is excluded (draft), yet its slug `x` IS
a key of the run's output, because the retained `activeFile` carries the
same slug — the claim's "its slug is not a key of the output mapping" fails
when an excluded document's slug collides with a retained document's. -/
theorem claim_C6_counterexample :
    processDocumentFile id draftFileX = none ∧
    runV1 id [activeFile, draftFileX] ⟨[1, 1], [1]⟩ 5 =
      some [("x", ([] : List (SimilarityResult ℚ)))] ∧
    keyStr draftFileX.data.slug ∈
      ([("x", ([] : List (SimilarityResult ℚ)))]).map Prod.fst := by
  refine ⟨by decide, by decide, by decide⟩

/-- C6 amended: a document with an invalid slug or `draft: true` is excluded
before embedding and contributes nothing: the whole run computes exactly as
if the file were absent (hence it adds no text to the batch and never
appears as a neighbour), and its slug is not a key of the output PROVIDED no
retained document bears the same slug (the counterexample shows the proviso
is necessary).  The exclusion condition here is the verbose variant's; the
compact variant instead tests truthiness (`!data.slug || data.draft`), which
also keeps non-string truthy slugs. -/
theorem claim_C6_exclusion (strip : String → String) (pre post : List RawFile)
    (f : RawFile) (out : EmbeddingOutput) (topN : Nat)
    (hex : isValidSlug f.data.slug = false ∨ f.data.draft = JsVal.bool true) :
    runV1 strip (pre ++ f :: post) out topN = runV1 strip (pre ++ post) out topN ∧
    (∀ s res, f.data.slug = JsVal.str s →
      runV1 strip (pre ++ f :: post) out topN = some res →
      (∀ d ∈ loadAllDocuments strip (pre ++ post), keyStr d.frontmatter.slug ≠ s) →
      s ∉ res.map Prod.fst) := by
  have hpf : processDocumentFile strip f = none := processDocumentFile_eq_none hex
  have hdocs : loadAllDocuments strip (pre ++ f :: post) =
      loadAllDocuments strip (pre ++ post) := by
    have h2 : loadAllDocuments strip (f :: post) = loadAllDocuments strip post := by
      unfold loadAllDocuments
      exact List.filterMap_cons_none hpf
    rw [loadAllDocuments_append, h2, ← loadAllDocuments_append]
  have hmain : runV1 strip (pre ++ f :: post) out topN =
      runV1 strip (pre ++ post) out topN := by
    by_cases hpp : (pre ++ post).isEmpty = true
    · have hnil : pre ++ post = [] := List.isEmpty_iff.mp hpp
      have hload : loadAllDocuments strip (pre ++ f :: post) = [] := by
        rw [hdocs, hnil]
        rfl
      unfold runV1
      rw [if_pos hpp, if_neg (by simp), if_pos (by rw [hload]; rfl)]
    · unfold runV1
      rw [hdocs, if_neg (by simp), if_neg hpp]
  refine ⟨hmain, ?_⟩
  intro s res hslug hrun hothers
  rw [hmain] at hrun
  unfold runV1 at hrun
  split_ifs at hrun with h1 h2 h3 h4
  have hres : res = computeAllSimilarities (loadAllDocuments strip (pre ++ post))
      (generateDocumentEmbeddings (loadAllDocuments strip (pre ++ post)) out) topN :=
    (Option.some_inj.mp hrun).symm
  subst hres
  intro hmem
  have hmem2 := (foldl_recordSet_mem_fst
    (fun p : Nat × Document => keyStr p.2.frontmatter.slug)
    (fun p : Nat × Document => calculateSingleDocSimilarities p.1
      (loadAllDocuments strip (pre ++ post))
      (generateDocumentEmbeddings (loadAllDocuments strip (pre ++ post)) out) topN)
    (loadAllDocuments strip (pre ++ post)).enum [] s).mp hmem
  rcases hmem2 with h | ⟨x, hx, hxs⟩
  · simp at h
  · have hxe : (x.1, x.2) ∈ (loadAllDocuments strip (pre ++ post)).enum := by
      simpa using hx
    have hxd : x.2 ∈ loadAllDocuments strip (pre ++ post) :=
      List.getElem?_mem (List.mk_mem_enum_iff_getElem?.mp hxe)
    exact hothers x.2 hxd hxs

/-- Witness for C6's amended statement: the draft `draftFileY` (slug `y`)
next to the retained `activeFile` (slug `x`). -/
theorem claim_C6_exclusion_witness :
    runV1 id ([activeFile] ++ draftFileY :: []) ⟨[1, 1], [1]⟩ 5 =
      runV1 id ([activeFile] ++ []) ⟨[1, 1], [1]⟩ 5 ∧
    "y" ∉ ([("x", ([] : List (SimilarityResult ℚ)))]).map Prod.fst := by
  have h := claim_C6_exclusion id [activeFile] [] draftFileY ⟨[1, 1], [1]⟩ 5
    (Or.inr (by decide))
  refine ⟨h.1, ?_⟩
  exact h.2 "y" [("x", [])] (by decide) (by decide) (by decide)

/-- C9 counterexample: text normalization is not idempotent even on
markup-free input.  `"import\nfoo"` normalizes to the single line
`"import foo"`, which the second pass deletes entirely (it now matches the
`^import .*?$` line-removal pattern), yielding `""`. -/
theorem claim_C9_counterexample :
    getPlainText id (getPlainText id "import\nfoo") ≠ getPlainText id "import\nfoo" := by
  decide

/-- C9 amended: for markup-free input (the stripper fixes the normalized
text), a second normalization pass is the identity PROVIDED the normalized
output, viewed as the single line it is, matches none of the line-removal
patterns (import/export prefix, boilerplate heading, all-caps, table row),
contains no `Rule<ws><digits>:` marker head, and has already-normalized
whitespace — conditions packaged in `secondPassInert`.  The counterexample
shows some restriction of this kind is necessary. -/
theorem claim_C9_idempotent (strip : String → String) (x : String)
    (hfix : strip (getPlainText strip x) = getPlainText strip x)
    (hinert : secondPassInert (getPlainText strip x) = true) :
    getPlainText strip (getPlainText strip x) = getPlainText strip x := by
  unfold getPlainText at hfix ⊢
  rw [hfix]
  exact getPlainTextPost_id hinert

/-- Witness for C9's amended statement at the text `"hi"`. -/
theorem claim_C9_idempotent_witness :
    getPlainText id (getPlainText id "hi") = getPlainText id "hi" :=
  claim_C9_idempotent id "hi" rfl (by decide)

end PostMatcher
